import Mathlib

/-!
Verification of the Facepass identity-matching engine
(backend/app/services: embedding_storage.py, security.py, face.py,
face_search.py and the auth API in backend/app/api/auth.py).

Embedding conventions.
Python floats are modelled as rationals.  The json module (json.dumps /
json.loads, external library code) is modelled as an injective byte
serialization of rational vectors together with its parse inverse; a
top-level JSON value is modelled by the type JsonVal, distinguishing the
array case (the only one the storage layer accepts) from every other
JSON value.  The Fernet cipher of the cryptography library (wrapped by
security.encrypt_secret / security.decrypt_secret) is external library
code; it is modelled as an idealized deterministic authenticated
encryption: a token is a marker byte followed by the payload and an
authentication copy of the payload, and decryption recomputes and checks
the authentication part, so that any modified token is rejected.  This
captures exactly the authenticated-encryption contract the spec assigns
to the Secret Cipher (integrity: any flipped byte is detected).
-/

/-- Unary length-prefixed encoding of a natural number into bytes:
n ones followed by a terminating zero.  Injective and self-delimiting. -/
def encNat (n : ℕ) : List ℕ :=
  List.replicate n 1 ++ [0]

/-- Parse inverse of encNat: consumes the leading ones up to the first
zero and returns the count together with the remaining bytes. -/
def parseNat : List ℕ → Option (ℕ × List ℕ)
  | 0 :: rest => some (0, rest)
  | 1 :: rest => (parseNat rest).map (fun p => (p.1 + 1, p.2))
  | _ => none

/-- Serialization of one rational: sign byte, numerator magnitude,
denominator. -/
def serializeQ (q : ℚ) : List ℕ :=
  (if q.num < 0 then 1 else 0) :: (encNat q.num.natAbs ++ encNat q.den)

/-- Parse inverse of serializeQ. -/
def parseQ (bs : List ℕ) : Option (ℚ × List ℕ) :=
  match bs with
  | s :: rest =>
    (parseNat rest).bind (fun p =>
      (parseNat p.2).map (fun p2 =>
        (mkRat (if s = 1 then -(p.1 : ℤ) else (p.1 : ℤ)) p2.1, p2.2)))
  | [] => none

/-- Concatenated serialization of a list of rationals. -/
def serializeQs : List ℚ → List ℕ
  | [] => []
  | q :: rest => serializeQ q ++ serializeQs rest

/-- Parse a fixed count of rationals. -/
def parseQs : ℕ → List ℕ → Option (List ℚ × List ℕ)
  | 0, bs => some ([], bs)
  | n + 1, bs =>
    (parseQ bs).bind (fun p =>
      (parseQs n p.2).map (fun p2 => (p.1 :: p2.1, p2.2)))

/-- Length-prefixed serialization of a rational vector (a JSON array of
numbers as produced by json.dumps on an embedding). -/
def serializeQList (l : List ℚ) : List ℕ :=
  encNat l.length ++ serializeQs l

/-- Parse inverse of serializeQList. -/
def parseQList (bs : List ℕ) : Option (List ℚ × List ℕ) :=
  (parseNat bs).bind (fun p => parseQs p.1 p.2)

/-- A top-level JSON value: either an array of numbers (the shape the
embedding codec works with) or any other JSON value, abstracted. -/
inductive JsonVal : Type
  | arr (elems : List ℚ)
  | nonArr (n : ℕ)
  deriving DecidableEq

/-- json.dumps: serialize a top-level JSON value to bytes. -/
def serializeJson : JsonVal → List ℕ
  | .arr l => 0 :: serializeQList l
  | .nonArr n => 1 :: encNat n

/-- json.loads: parse bytes into a top-level JSON value, requiring the
whole input to be consumed. -/
def parseJson (bs : List ℕ) : Option JsonVal :=
  match bs with
  | 0 :: rest => (parseQList rest).bind
      (fun p => if p.2 = [] then some (.arr p.1) else none)
  | 1 :: rest => (parseNat rest).bind
      (fun p => if p.2 = [] then some (.nonArr p.1) else none)
  | _ => none

theorem option_some_bind {α β : Type} (a : α) (f : α → Option β) :
    (some a).bind f = f a := rfl

theorem option_some_map {α β : Type} (a : α) (f : α → β) :
    (some a).map f = some (f a) := rfl

theorem parseNat_encNat (n : ℕ) (r : List ℕ) :
    parseNat (encNat n ++ r) = some (n, r) := by
  induction n with
  | zero => rfl
  | succ k ih =>
    have h : encNat (k + 1) ++ r = 1 :: (encNat k ++ r) := by
      simp [encNat, List.replicate_succ]
    rw [h]
    simp only [parseNat, ih, option_some_map]

theorem parseQ_serializeQ (q : ℚ) (r : List ℕ) :
    parseQ (serializeQ q ++ r) = some (q, r) := by
  rcases lt_or_le q.num 0 with hneg | hpos
  · have h1 : (-(q.num.natAbs : ℤ)) = q.num := by omega
    simp only [serializeQ, if_pos hneg, List.cons_append, parseQ,
      List.append_assoc, parseNat_encNat, option_some_bind, option_some_map]
    simp
    rw [abs_of_neg hneg, neg_neg, Rat.mkRat_self]
  · have h1 : ((q.num.natAbs : ℤ)) = q.num := by omega
    simp only [serializeQ, if_neg (not_lt.mpr hpos), List.cons_append, parseQ,
      List.append_assoc, parseNat_encNat, option_some_bind, option_some_map]
    simp [h1, Rat.mkRat_self]

theorem parseQs_serializeQs (l : List ℚ) (r : List ℕ) :
    parseQs l.length (serializeQs l ++ r) = some (l, r) := by
  induction l with
  | nil => rfl
  | cons q rest ih =>
    simp only [serializeQs, List.length_cons, parseQs, List.append_assoc,
      parseQ_serializeQ, option_some_bind, ih, option_some_map]

theorem parseQs_serializeQs_nil (l : List ℚ) :
    parseQs l.length (serializeQs l) = some (l, []) := by
  have h := parseQs_serializeQs l []
  rwa [List.append_nil] at h

theorem parseQList_serializeQList (l : List ℚ) :
    parseQList (serializeQList l) = some (l, []) := by
  simp only [parseQList, serializeQList, parseNat_encNat, option_some_bind,
    parseQs_serializeQs_nil]

theorem parseJson_serializeJson (j : JsonVal) :
    parseJson (serializeJson j) = some j := by
  cases j with
  | arr l =>
    simp only [serializeJson, parseJson, parseQList_serializeQList,
      option_some_bind]
    simp
  | nonArr n =>
    have h := parseNat_encNat n []
    rw [List.append_nil] at h
    simp only [serializeJson, parseJson, h, option_some_bind]
    simp

/-!
Secret Cipher (backend/app/services/security.py, wrapping the external
Fernet cipher).  Modelled from the spec: the Fernet library itself is
not repository code; section 4.2 of the spec specifies it as symmetric
authenticated encryption whose decrypt detects any bit flip.  The
idealized model below realizes that contract: a token is the Fernet
marker byte followed by the payload and an authentication copy of the
payload; decrypt checks the marker and the authentication copy and
returns the payload, rejecting every modified token.
-/

/-- Fernet tokens begin with the byte of the character g. -/
def fernetMarker : ℕ := 103

/-- security.encrypt_secret: encrypt a plaintext byte string into an
authenticated token. -/
def encrypt_secret (pt : List ℕ) : List ℕ :=
  fernetMarker :: (pt ++ pt)

/-- security.decrypt_secret: authenticate and decrypt a token; returns
none exactly where the Fernet library raises InvalidToken. -/
def decrypt_secret (tok : List ℕ) : Option (List ℕ) :=
  match tok with
  | [] => none
  | m :: rest =>
    if m = fernetMarker ∧ rest.length % 2 = 0 ∧
        rest.drop (rest.length / 2) = rest.take (rest.length / 2) then
      some (rest.take (rest.length / 2))
    else none

theorem decrypt_secret_cons_bad_marker (m : ℕ) (rest : List ℕ)
    (h : m ≠ fernetMarker) : decrypt_secret (m :: rest) = none := by
  show (if m = fernetMarker ∧ rest.length % 2 = 0 ∧
      rest.drop (rest.length / 2) = rest.take (rest.length / 2) then
    some (rest.take (rest.length / 2)) else none) = none
  exact if_neg (fun hcon => h hcon.1)

theorem decrypt_secret_cons_corrupt (rest : List ℕ)
    (h : rest.drop (rest.length / 2) ≠ rest.take (rest.length / 2)) :
    decrypt_secret (fernetMarker :: rest) = none := by
  show (if fernetMarker = fernetMarker ∧ rest.length % 2 = 0 ∧
      rest.drop (rest.length / 2) = rest.take (rest.length / 2) then
    some (rest.take (rest.length / 2)) else none) = none
  exact if_neg (fun hcon => h hcon.2.2)

theorem decrypt_secret_encrypt (pt : List ℕ) :
    decrypt_secret (encrypt_secret pt) = some pt := by
  have hlen : (pt ++ pt).length = 2 * pt.length := by
    simp [List.length_append]; ring
  have hdiv : (pt ++ pt).length / 2 = pt.length := by omega
  have htake : (pt ++ pt).take pt.length = pt := List.take_left pt pt
  have hdrop : (pt ++ pt).drop pt.length = pt := List.drop_left pt pt
  show (if fernetMarker = fernetMarker ∧ (pt ++ pt).length % 2 = 0 ∧
      (pt ++ pt).drop ((pt ++ pt).length / 2) =
        (pt ++ pt).take ((pt ++ pt).length / 2) then
    some ((pt ++ pt).take ((pt ++ pt).length / 2)) else none) = some pt
  rw [if_pos ⟨rfl, by omega, by rw [hdiv, htake, hdrop]⟩, hdiv, htake]

theorem list_set_append_left (l₁ l₂ : List ℕ) (j c : ℕ) (hj : j < l₁.length) :
    (l₁ ++ l₂).set j c = l₁.set j c ++ l₂ := by
  induction l₁ generalizing j with
  | nil => simp at hj
  | cons a as ih =>
    cases j with
    | zero => rfl
    | succ k =>
      have hk : k < as.length := by simpa using hj
      show a :: ((as ++ l₂).set k c) = a :: (as.set k c ++ l₂)
      rw [ih k hk]

theorem list_set_append_right (l₁ l₂ : List ℕ) (j c : ℕ)
    (hj : l₁.length ≤ j) :
    (l₁ ++ l₂).set j c = l₁ ++ l₂.set (j - l₁.length) c := by
  induction l₁ generalizing j with
  | nil => simp
  | cons a as ih =>
    cases j with
    | zero => simp at hj
    | succ k =>
      have hk : as.length ≤ k := by simpa using hj
      show a :: ((as ++ l₂).set k c) = a :: (as ++ l₂.set (k + 1 - (as.length + 1)) c)
      rw [Nat.succ_sub_succ, ih k hk]

theorem list_set_ne_self {l : List ℕ} {k c : ℕ} (hk : k < l.length)
    (hc : c ≠ l.getD k 0) : l.set k c ≠ l := by
  induction l generalizing k with
  | nil => simp at hk
  | cons a as ih =>
    cases k with
    | zero =>
      intro h
      exact hc (by simpa using congrArg (fun t => t.getD 0 0) h)
    | succ m =>
      intro h
      have hm : m < as.length := by simpa using hk
      have hset : as.set m c = as := by simpa using h
      exact ih hm (by simpa [List.getD] using hc) hset

theorem decrypt_secret_set (pt : List ℕ) (i c : ℕ)
    (hi : i < (encrypt_secret pt).length)
    (hc : c ≠ (encrypt_secret pt).getD i 0) :
    decrypt_secret ((encrypt_secret pt).set i c) = none := by
  have hlen : (pt ++ pt).length = 2 * pt.length := by
    simp [List.length_append]; ring
  cases i with
  | zero =>
    have hc0 : c ≠ fernetMarker := by simpa [encrypt_secret, List.getD] using hc
    show decrypt_secret (c :: (pt ++ pt)) = none
    exact decrypt_secret_cons_bad_marker c (pt ++ pt) hc0
  | succ j =>
    have hj : j < 2 * pt.length := by
      have hi2 := hi
      simp only [encrypt_secret, List.length_cons] at hi2
      omega
    have hcj : c ≠ (pt ++ pt).getD j 0 := by
      simpa [encrypt_secret, List.getD] using hc
    show decrypt_secret (fernetMarker :: (pt ++ pt).set j c) = none
    have hlenset : ((pt ++ pt).set j c).length = 2 * pt.length := by
      simp [List.length_set, hlen]
    have hdiv : ((pt ++ pt).set j c).length / 2 = pt.length := by omega
    have hne : ((pt ++ pt).set j c).drop pt.length ≠
        ((pt ++ pt).set j c).take pt.length := by
      rcases lt_or_le j pt.length with hjl | hjr
      · rw [list_set_append_left pt pt j c hjl]
        have h1 : (pt.set j c ++ pt).take pt.length = pt.set j c := by
          have h := List.take_left (pt.set j c) pt
          rwa [List.length_set] at h
        have h2 : (pt.set j c ++ pt).drop pt.length = pt := by
          have h := List.drop_left (pt.set j c) pt
          rwa [List.length_set] at h
        rw [h1, h2]
        have hgd : c ≠ pt.getD j 0 := by
          have heq : (pt ++ pt).getD j 0 = pt.getD j 0 := by
            rw [List.getD_eq_getElem?_getD, List.getD_eq_getElem?_getD,
              List.getElem?_append_left hjl]
          rwa [heq] at hcj
        exact fun h => list_set_ne_self hjl hgd h.symm
      · rw [list_set_append_right pt pt j c hjr]
        have h1 : (pt ++ pt.set (j - pt.length) c).take pt.length = pt :=
          List.take_left pt _
        have h2 : (pt ++ pt.set (j - pt.length) c).drop pt.length =
            pt.set (j - pt.length) c := List.drop_left pt _
        rw [h1, h2]
        have hjm : j - pt.length < pt.length := by omega
        have hgd : c ≠ pt.getD (j - pt.length) 0 := by
          have heq : (pt ++ pt).getD j 0 = pt.getD (j - pt.length) 0 := by
            rw [List.getD_eq_getElem?_getD, List.getD_eq_getElem?_getD,
              List.getElem?_append_right hjr]
          rwa [heq] at hcj
        exact list_set_ne_self hjm hgd
    have hne2 : ((pt ++ pt).set j c).drop (((pt ++ pt).set j c).length / 2) ≠
        ((pt ++ pt).set j c).take (((pt ++ pt).set j c).length / 2) := by
      rw [hdiv]; exact hne
    exact decrypt_secret_cons_corrupt _ hne2

/-!
Embedding storage layer (backend/app/services/embedding_storage.py).
Error values mirror the distinct raise sites of the Python code; every
one of them is a plain ValueError there, distinguished only by message:
  mustBeList        = ValueError - Embedding must be a list
  emptyEmbedding    = ValueError - Embedding cannot be empty
  tooLarge          = ValueError - Embedding too large
  outOfRange        = ValueError - Embedding contains out-of-range values
  decryptionFailure = ValueError - Unable to decrypt embedding (InvalidToken)
  jsonParseFailure  = ValueError - Unable to parse embedding (JSONDecodeError)
The is-a-list check and the all-numbers check of the Python code are
about dynamic typing; in this typed model an embedding is a list of
numbers by construction, so only the list check on the decrypted JSON
value remains (the nonArr case of JsonVal).
-/

inductive EmbError : Type
  | mustBeList
  | emptyEmbedding
  | tooLarge
  | outOfRange
  | decryptionFailure
  | jsonParseFailure
  deriving DecidableEq

/-- MAX_EMBEDDING_DIM from embedding_storage.py. -/
def MAX_EMBEDDING_DIM : ℕ := 4096

/-- validate_embedding_format: checks, in order, non-emptiness, the size
bound, and that every element lies strictly between -1e6 and 1e6. -/
def validate_embedding_format (e : List ℚ) : Except EmbError Unit :=
  if e.length = 0 then .error .emptyEmbedding
  else if MAX_EMBEDDING_DIM < e.length then .error .tooLarge
  else if e.all (fun x => decide (-1000000 < x) && decide (x < 1000000)) then
    .ok ()
  else .error .outOfRange

/-- encrypt_embedding: validate, then serialize to JSON and encrypt. -/
def encrypt_embedding (e : List ℚ) : Except EmbError (List ℕ) :=
  match validate_embedding_format e with
  | .error err => .error err
  | .ok _ => .ok (encrypt_secret (serializeJson (.arr e)))

/-- decrypt_embedding: decrypt, parse the JSON, and check only that the
result is a list; no other validation is applied on this path. -/
def decrypt_embedding (blob : List ℕ) : Except EmbError (List ℚ) :=
  match decrypt_secret blob with
  | none => .error .decryptionFailure
  | some pt =>
    match parseJson pt with
    | none => .error .jsonParseFailure
    | some (.nonArr _) => .error .mustBeList
    | some (.arr l) => .ok l

theorem validate_ok_of_bounds (v : List ℚ) (h1 : v.length ≠ 0)
    (h2 : v.length ≤ MAX_EMBEDDING_DIM)
    (h3 : ∀ x ∈ v, -1000000 < x ∧ x < 1000000) :
    validate_embedding_format v = .ok () := by
  unfold validate_embedding_format
  rw [if_neg h1, if_neg (not_lt.mpr h2), if_pos]
  rw [List.all_eq_true]
  intro x hx
  have h := h3 x hx
  simp [h.1, h.2]

theorem decrypt_embedding_encrypt_secret (pt : List ℕ) :
    decrypt_embedding (encrypt_secret pt) =
      match parseJson pt with
      | none => .error .jsonParseFailure
      | some (.nonArr _) => .error .mustBeList
      | some (.arr l) => .ok l := by
  unfold decrypt_embedding
  rw [decrypt_secret_encrypt]

deriving instance DecidableEq for Except

/-!
Registration-time storage (backend/app/api/auth.py, register).  The
register handler persists the chosen embedding as
json.dumps(embedding), i.e. the plain JSON serialization, and the
matchers (auth.py login and register loops, face_search.py build_index
and greedy_face_search) all read the stored value with json.loads.
-/

/-- auth.register line 63: the value stored in User.face_embedding is
json.dumps(embedding), the plain serialization. -/
def registerStoredBlob (e : List ℚ) : List ℕ :=
  serializeJson (.arr e)

/-- json.loads(user.face_embedding) as performed by every matcher
(auth.py lines 55 and 92, face_search.py lines 46 and 233), keeping the
value only when it is a JSON array. -/
def matcherLoadEmbedding (stored : List ℕ) : Option (List ℚ) :=
  match parseJson stored with
  | some (.arr l) => some l
  | _ => none

/-- Claim C1, code-bug evidence: at registration the stored blob for the
embedding one half is the plain JSON serialization, not the embedding
codec output.  The matchers read it back as plaintext JSON; the codec
decode rejects it as not being a ciphertext; and the actual codec encode
output is a different blob.  This contradicts the spec and the
repository's own database-encryption checks, which flag plain-JSON
embeddings as a failure. -/
theorem c1_register_persists_plaintext :
    registerStoredBlob [(2 : ℚ)] = serializeJson (.arr [(2 : ℚ)])
    ∧ matcherLoadEmbedding (registerStoredBlob [(2 : ℚ)]) = some [(2 : ℚ)]
    ∧ decrypt_embedding (registerStoredBlob [(2 : ℚ)]) =
        .error .decryptionFailure
    ∧ encrypt_embedding [(2 : ℚ)] =
        .ok (encrypt_secret (serializeJson (.arr [(2 : ℚ)])))
    ∧ registerStoredBlob [(2 : ℚ)] ≠
        encrypt_secret (serializeJson (.arr [(2 : ℚ)])) := by
  decide

/-- Claim C3, counterexample: a blob whose plaintext is the empty JSON
array decodes successfully to the empty vector, even though the
encode-side validation rejects the empty vector; so decode does not
re-apply the validation rules, contrary to the claim. -/
theorem c3_counterexample_empty_decodes :
    decrypt_embedding (encrypt_secret (serializeJson (.arr []))) = .ok []
    ∧ validate_embedding_format [] = .error .emptyEmbedding := by
  exact ⟨rfl, rfl⟩

/-- Claim C3, amended: decode decrypts and then checks only that the
plaintext is a JSON list; the empty, oversized and out-of-range rules
are applied by encode only, and a blob failing authentication yields the
distinct decryption-failure error. -/
theorem c3_decode_checks_only_list_shape (l : List ℚ) (n : ℕ)
    (blob : List ℕ) (hb : decrypt_secret blob = none) :
    decrypt_embedding (encrypt_secret (serializeJson (.arr l))) = .ok l
    ∧ decrypt_embedding (encrypt_secret (serializeJson (.nonArr n))) =
        .error .mustBeList
    ∧ decrypt_embedding blob = .error .decryptionFailure := by
  refine ⟨?_, ?_, ?_⟩
  · rw [decrypt_embedding_encrypt_secret, parseJson_serializeJson]
  · rw [decrypt_embedding_encrypt_secret, parseJson_serializeJson]
  · unfold decrypt_embedding
    rw [hb]

/-- Witness for the amended claim C3 at concrete inputs. -/
theorem c3_amended_witness :
    decrypt_embedding (encrypt_secret (serializeJson (.arr [(3 : ℚ)]))) =
        .ok [(3 : ℚ)]
    ∧ decrypt_embedding (encrypt_secret (serializeJson (.nonArr 5))) =
        .error .mustBeList
    ∧ decrypt_embedding [] = .error .decryptionFailure :=
  c3_decode_checks_only_list_shape [(3 : ℚ)] 5 [] rfl

/-- Claim C4: for every encoded blob, modifying any single byte makes
decode fail with the decryption-failure error, and the unmodified blob
decodes to exactly the encoded vector (no silent corruption). -/
theorem c4_tamper_detection (v : List ℚ) (blob : List ℕ) (i c : ℕ)
    (henc : encrypt_embedding v = .ok blob) (hi : i < blob.length)
    (hc : c ≠ blob.getD i 0) :
    decrypt_embedding (blob.set i c) = .error .decryptionFailure
    ∧ decrypt_embedding blob = .ok v := by
  have hb : blob = encrypt_secret (serializeJson (.arr v)) := by
    unfold encrypt_embedding at henc
    split at henc
    · cases henc
    · cases henc
      rfl
  subst hb
  constructor
  · unfold decrypt_embedding
    rw [decrypt_secret_set (serializeJson (.arr v)) i c hi hc]
  · rw [decrypt_embedding_encrypt_secret, parseJson_serializeJson]

/-- Witness for claim C4 at a concrete blob and byte position. -/
theorem c4_tamper_witness :
    decrypt_embedding
        ((encrypt_secret (serializeJson (.arr [(3 : ℚ)]))).set 1 7) =
      .error .decryptionFailure
    ∧ decrypt_embedding (encrypt_secret (serializeJson (.arr [(3 : ℚ)]))) =
      .ok [(3 : ℚ)] :=
  c4_tamper_detection [(3 : ℚ)] _ 1 7 (by decide) (by decide) (by decide)

/-- Claim C8: for every valid embedding, decode composed with encode
returns a vector of the same length whose entries differ from the
original by at most 1e-9 (here: they are equal). -/
theorem c8_roundtrip (v : List ℚ) (h1 : v.length ≠ 0)
    (h2 : v.length ≤ MAX_EMBEDDING_DIM)
    (h3 : ∀ x ∈ v, -1000000 < x ∧ x < 1000000) :
    ∃ blob w, encrypt_embedding v = .ok blob
      ∧ decrypt_embedding blob = .ok w
      ∧ w.length = v.length
      ∧ ∀ i, i < v.length → |w.getD i 0 - v.getD i 0| ≤ 1 / 1000000000 := by
  refine ⟨encrypt_secret (serializeJson (.arr v)), v, ?_, ?_, rfl, ?_⟩
  · unfold encrypt_embedding
    rw [validate_ok_of_bounds v h1 h2 h3]
  · rw [decrypt_embedding_encrypt_secret, parseJson_serializeJson]
  · intro i _
    rw [sub_self, abs_zero]
    positivity

/-- Witness for claim C8 at a concrete valid embedding. -/
theorem c8_roundtrip_witness :
    ∃ blob w, encrypt_embedding [(5 : ℚ)] = .ok blob
      ∧ decrypt_embedding blob = .ok w
      ∧ w.length = [(5 : ℚ)].length
      ∧ ∀ i, i < [(5 : ℚ)].length →
          |w.getD i 0 - [(5 : ℚ)].getD i 0| ≤ 1 / 1000000000 :=
  c8_roundtrip [(5 : ℚ)] (by decide) (by decide) (by decide)

/-!
Distance layer (backend/app/services/face.py and numpy).  The numpy
expression np.linalg.norm(a - b) <= t is embedded without the irrational
square root: since the norm is the nonnegative square root of the sum of
squares, norm(d) <= t holds exactly when 0 <= t and sumSq d <= t * t,
which is the decidable test leThresh below.  Likewise, sorting by the
norm orders pairs exactly as sorting by the sum of squares, since the
square root is monotone.  Subtraction of numpy arrays broadcasts: equal
lengths subtract pointwise, a length-one operand is broadcast across the
other, and any other length combination raises a ValueError, modelled by
the broadcastMismatch error.
-/

inductive NpError : Type
  | broadcastMismatch
  deriving DecidableEq

/-- numpy array subtraction a - b with broadcasting. -/
def npSub (a b : List ℚ) : Except NpError (List ℚ) :=
  if a.length = b.length then .ok (List.zipWith (fun x y => x - y) a b)
  else if a.length = 1 then .ok (b.map (fun y => a.headD 0 - y))
  else if b.length = 1 then .ok (a.map (fun x => x - b.headD 0))
  else .error .broadcastMismatch

/-- Sum of squares of a vector: the square of its euclidean norm. -/
def sumSq (l : List ℚ) : ℚ :=
  (l.map (fun x => x * x)).sum

/-- Squared euclidean distance of two equal-length vectors. -/
def l2sq (a b : List ℚ) : ℚ :=
  sumSq (List.zipWith (fun x y => x - y) a b)

/-- The comparison norm(d) <= t, expressed on the squared norm. -/
def leThresh (d t : ℚ) : Bool :=
  decide (0 ≤ t) && decide (d ≤ t * t)

theorem leThresh_eq_true {d t : ℚ} :
    leThresh d t = true ↔ (0 ≤ t ∧ d ≤ t * t) := by
  simp [leThresh]

/-- face.embeddings_match: compare two embeddings under the L2 threshold
(face.py lines 83 to 87); the numpy subtraction may raise. -/
def embeddings_match (a b : List ℚ) (t : ℚ) : Except NpError Bool :=
  (npSub a b).map (fun d => leThresh (sumSq d) t)

/-- Claim C9, counterexample: a two-element query against a one-element
stored embedding does not fail; numpy broadcasting silently computes a
match result, contradicting the claim that any unequal lengths fail. -/
theorem c9_counterexample_broadcast :
    embeddings_match [(0 : ℚ), 0] [(0 : ℚ)] (mkRat 7 10) = .ok true := by
  have h : npSub [(0 : ℚ), 0] [(0 : ℚ)] = .ok [0 - 0, 0 - 0] := by
    unfold npSub
    norm_num
  unfold embeddings_match
  rw [h]
  show Except.ok (leThresh (sumSq [0 - 0, 0 - 0]) (mkRat 7 10)) = .ok true
  have hs : sumSq [(0 : ℚ) - 0, 0 - 0] = 0 := by
    simp [sumSq]
  rw [hs]
  have ht : leThresh 0 (mkRat 7 10) = true := by
    rw [leThresh_eq_true, Rat.mkRat_eq_div]
    norm_num
  rw [ht]

/-- Claim C9, amended: comparing embeddings of unequal lengths raises
the generic numpy broadcast error, not a distinct dimension-mismatch
error kind, and only when neither operand has length one; a length-one
operand is broadcast and a match result is silently computed. -/
theorem c9_mismatch_broadcast_error (a b : List ℚ) (t : ℚ)
    (h : a.length ≠ b.length) (h1 : a.length ≠ 1) (h2 : b.length ≠ 1) :
    embeddings_match a b t = .error .broadcastMismatch := by
  unfold embeddings_match npSub
  rw [if_neg h, if_neg h1, if_neg h2]
  rfl

/-- Witness for the amended claim C9: query dimension 128 against stored
dimension 64 raises the broadcast error. -/
theorem c9_mismatch_witness :
    embeddings_match (List.replicate 128 (0 : ℚ))
      (List.replicate 64 (0 : ℚ)) (mkRat 7 10) = .error .broadcastMismatch :=
  c9_mismatch_broadcast_error _ _ _ (by simp) (by simp) (by simp)

/-!
Search layer (backend/app/services/face_search.py and the linear scans
in backend/app/api/auth.py).  A user record carries the integer id and
the embedding recovered by json.loads from the stored plaintext; the
Python list.sort used by the greedy matcher is a stable sort keyed on
the distance, modelled by the stable insertion sort, keyed on the
squared distance, which induces the same order as the norm.
-/

structure UserRec where
  id : ℕ
  face_embedding : List ℚ
  deriving DecidableEq

/-- Comparison on scored candidates, by distance. -/
def scoreLE (a b : UserRec × ℚ) : Prop := a.2 ≤ b.2

instance : DecidableRel scoreLE :=
  fun a b => inferInstanceAs (Decidable (a.2 ≤ b.2))

instance : IsTotal (UserRec × ℚ) scoreLE := ⟨fun a b => le_total a.2 b.2⟩

instance : IsTrans (UserRec × ℚ) scoreLE := ⟨fun _ _ _ h1 h2 => le_trans h1 h2⟩

/-- Step 1 of greedy_face_search (face_search.py lines 229 to 235): the
quick L2 distance computation over all users, pairing each user with the
distance of the query to the stored embedding; the first numpy failure
aborts the whole call, as in Python. -/
def computeScores (q : List ℚ) : List UserRec → Except NpError (List (UserRec × ℚ))
  | [] => .ok []
  | u :: rest =>
    match npSub q u.face_embedding with
    | .error e => .error e
    | .ok d =>
      match computeScores q rest with
      | .error e => .error e
      | .ok s => .ok ((u, sumSq d) :: s)

/-- greedy_face_search (face_search.py lines 194 to 249): compute all
quick scores, sort ascending by distance, keep the best min(top_k, n)
candidates, and return the first of them within the threshold. -/
def greedy_face_search (q : List ℚ) (users : List UserRec) (threshold : ℚ)
    (top_k : ℕ) : Except NpError (Option UserRec) :=
  if users.isEmpty then .ok none
  else
    match computeScores q users with
    | .error e => .error e
    | .ok quick_scores =>
      let sorted := List.insertionSort scoreLE quick_scores
      let top_candidates := sorted.take (min top_k quick_scores.length)
      .ok ((top_candidates.find? (fun p => leThresh p.2 threshold)).map
            (fun p => p.1))

/-- The linear matcher: the exhaustive scan of auth.register (auth.py
lines 53 to 59; same face-matching loop as login lines 90 to 94 without
the password conjunct, which is outside the matcher): return the first
user whose embedding matches the query within the threshold. -/
def linear_find_match (q : List ℚ) (users : List UserRec) (t : ℚ) :
    Except NpError (Option UserRec) :=
  match users with
  | [] => .ok none
  | u :: rest =>
    match embeddings_match q u.face_embedding t with
    | .error e => .error e
    | .ok true => .ok (some u)
    | .ok false => linear_find_match q rest t

theorem computeScores_eq (q : List ℚ) (users : List UserRec)
    (hdim : ∀ u ∈ users, u.face_embedding.length = q.length) :
    computeScores q users =
      .ok (users.map (fun u => (u, l2sq q u.face_embedding))) := by
  induction users with
  | nil => rfl
  | cons u rest ih =>
    have hq : q.length = u.face_embedding.length :=
      (hdim u (List.mem_cons_self u rest)).symm
    have hsub : npSub q u.face_embedding =
        .ok (List.zipWith (fun x y => x - y) q u.face_embedding) := by
      unfold npSub
      rw [if_pos hq]
    have hrest := ih (fun v hv => hdim v (List.mem_cons_of_mem u hv))
    simp only [computeScores, hsub, hrest, List.map_cons]
    rfl

theorem greedy_eq (q : List ℚ) (users : List UserRec) (t : ℚ) (k : ℕ)
    (hdim : ∀ u ∈ users, u.face_embedding.length = q.length) :
    greedy_face_search q users t k =
      .ok ((((List.insertionSort scoreLE
          (users.map (fun u => (u, l2sq q u.face_embedding)))).take
            (min k (users.map (fun u => (u, l2sq q u.face_embedding))).length)).find?
              (fun p => leThresh p.2 t)).map (fun p => p.1)) := by
  unfold greedy_face_search
  by_cases he : users.isEmpty
  · rw [if_pos he]
    have h0 : users = [] := List.isEmpty_iff.mp he
    subst h0
    simp
  · rw [if_neg he, computeScores_eq q users hdim]

theorem list_find?_cons_true {α : Type} (p : α → Bool) (a : α) (l : List α)
    (h : p a = true) : List.find? p (a :: l) = some a := by
  show (match p a with | true => some a | false => List.find? p l) = some a
  rw [h]

theorem list_find?_cons_false {α : Type} (p : α → Bool) (a : α) (l : List α)
    (h : p a = false) : List.find? p (a :: l) = List.find? p l := by
  show (match p a with | true => some a | false => List.find? p l) =
    List.find? p l
  rw [h]

theorem find?_sorted_eq_head (t : ℚ) (l : List (UserRec × ℚ))
    (hs : List.Sorted scoreLE l) (x : UserRec × ℚ)
    (hx : l.find? (fun p => leThresh p.2 t) = some x) :
    ∃ rest, l = x :: rest := by
  induction l with
  | nil => simp at hx
  | cons y ys ih =>
    by_cases hy : leThresh y.2 t = true
    · rw [list_find?_cons_true (fun p => leThresh p.2 t) y ys hy] at hx
      have hyx : y = x := by simpa using hx
      exact ⟨ys, by rw [hyx]⟩
    · rw [list_find?_cons_false (fun p => leThresh p.2 t) y ys
        (by simpa using hy)] at hx
      have hpx := List.find?_some hx
      rcases leThresh_eq_true.mp (by simpa using hpx) with ⟨ht0, hxle⟩
      have hygt : t * t < y.2 := by
        by_contra hno
        exact hy (leThresh_eq_true.mpr ⟨ht0, le_of_not_lt hno⟩)
      have hxy : y.2 ≤ x.2 :=
        (List.sorted_cons.mp hs).1 x (List.mem_of_find?_eq_some hx)
      exact absurd (le_trans hxy hxle) (not_le.mpr hygt)

/-- Claim C7: the greedy ranked matcher computes the distance to every
identity of the snapshot, sorts ascending by distance (a stable sort, as
Python's), accepts only among the first top_k candidates after sorting,
returning the first of those within the threshold and none otherwise;
an identity outside the first top_k after sorting is never returned. -/
theorem c7_greedy_ranked_matcher (q : List ℚ) (users : List UserRec)
    (t : ℚ) (k : ℕ) (scores : List (UserRec × ℚ))
    (hdim : ∀ u ∈ users, u.face_embedding.length = q.length)
    (hscores : scores = users.map (fun u => (u, l2sq q u.face_embedding))) :
    scores.map (fun p => p.1) = users
    ∧ (∀ p ∈ scores, p.2 = l2sq q p.1.face_embedding)
    ∧ (List.insertionSort scoreLE scores).Perm scores
    ∧ List.Sorted scoreLE (List.insertionSort scoreLE scores)
    ∧ greedy_face_search q users t k =
        .ok ((((List.insertionSort scoreLE scores).take
            (min k scores.length)).find? (fun p => leThresh p.2 t)).map
              (fun p => p.1))
    ∧ ∀ u ∈ users,
        u ∉ (((List.insertionSort scoreLE scores).take
            (min k scores.length)).map (fun p => p.1)) →
        greedy_face_search q users t k ≠ .ok (some u) := by
  subst hscores
  have hmain := greedy_eq q users t k hdim
  refine ⟨?_, ?_, List.perm_insertionSort _ _, List.sorted_insertionSort _ _,
    hmain, ?_⟩
  · rw [List.map_map]
    exact List.map_id users
  · intro p hp
    rcases List.mem_map.mp hp with ⟨u, _, rfl⟩
    rfl
  · intro u _ hnot hcontra
    rw [hmain] at hcontra
    have hmap : (((List.insertionSort scoreLE
        (users.map (fun v => (v, l2sq q v.face_embedding)))).take
          (min k (users.map (fun v => (v, l2sq q v.face_embedding))).length)).find?
            (fun p => leThresh p.2 t)).map (fun p => p.1) = some u := by
      simpa using hcontra
    rcases Option.map_eq_some'.mp hmap with ⟨x, hfind, hx1⟩
    exact hnot (hx1 ▸ List.mem_map_of_mem _ (List.mem_of_find?_eq_some hfind))

theorem sorted_take_find?_min (S : List (UserRec × ℚ)) (t : ℚ) (m : ℕ)
    (hm : 1 ≤ m) (x : UserRec × ℚ)
    (hfind : ((List.insertionSort scoreLE S).take m).find?
      (fun p => leThresh p.2 t) = some x) :
    x ∈ S ∧ ∀ p ∈ S, x.2 ≤ p.2 := by
  have hsorted := List.sorted_insertionSort scoreLE S
  have hst : List.Sorted scoreLE ((List.insertionSort scoreLE S).take m) :=
    List.Pairwise.sublist (List.take_sublist m _) hsorted
  obtain ⟨rest, hl⟩ := find?_sorted_eq_head t _ hst x hfind
  have hne : List.insertionSort scoreLE S ≠ [] := by
    intro h0
    rw [h0] at hl
    simp at hl
  obtain ⟨z, zs, hz⟩ := List.exists_cons_of_ne_nil hne
  have hxz : x = z := by
    obtain ⟨m', rfl⟩ : ∃ m', m = m' + 1 := ⟨m - 1, by omega⟩
    rw [hz, List.take_succ_cons] at hl
    injection hl with h1 _
    exact h1.symm
  subst hxz
  have hzS : x ∈ S :=
    (List.perm_insertionSort scoreLE S).subset
      (hz ▸ List.mem_cons_self x zs)
  refine ⟨hzS, ?_⟩
  intro p hpS
  have hpsorted : p ∈ List.insertionSort scoreLE S :=
    (List.perm_insertionSort scoreLE S).mem_iff.mpr hpS
  rw [hz] at hpsorted
  rcases List.mem_cons.mp hpsorted with h | h
  · rw [h]
  · exact (List.sorted_cons.mp (hz ▸ hsorted)).1 p h

/-- Claim C10: whenever the greedy matcher returns an identity, for any
snapshot, threshold and top_k at least one, the returned identity
attains the minimum distance to the query over the entire snapshot
(stated on the squared distance, which orders identically). -/
theorem c10_greedy_returns_nearest (q : List ℚ) (users : List UserRec)
    (t : ℚ) (k : ℕ) (u : UserRec)
    (hdim : ∀ v ∈ users, v.face_embedding.length = q.length)
    (hk : 1 ≤ k)
    (hres : greedy_face_search q users t k = .ok (some u)) :
    u ∈ users ∧ ∀ v ∈ users,
      l2sq q u.face_embedding ≤ l2sq q v.face_embedding := by
  by_cases he : users.isEmpty
  · exfalso
    unfold greedy_face_search at hres
    rw [if_pos he] at hres
    simp at hres
  · rw [greedy_eq q users t k hdim] at hres
    have hmap : ((((List.insertionSort scoreLE
        (users.map (fun v => (v, l2sq q v.face_embedding)))).take
          (min k (users.map (fun v => (v, l2sq q v.face_embedding))).length)).find?
            (fun p => leThresh p.2 t)).map (fun p => p.1)) = some u := by
      simpa using hres
    rcases Option.map_eq_some'.mp hmap with ⟨x, hfind, hx1⟩
    have husers : users ≠ [] := by
      intro h0
      rw [h0] at he
      simp at he
    have hm : 1 ≤ min k (users.map (fun v => (v, l2sq q v.face_embedding))).length := by
      rw [List.length_map]
      have hpos : 0 < users.length := List.length_pos.mpr husers
      omega
    obtain ⟨hxS, hmin⟩ := sorted_take_find?_min _ t _ hm x hfind
    subst hx1
    rcases List.mem_map.mp hxS with ⟨w, hw, rfl⟩
    refine ⟨hw, ?_⟩
    intro v hv
    exact hmin _ (List.mem_map_of_mem _ hv)

/-- Witness for claim C7: on a one-user snapshot matching the query the
greedy matcher returns that user, via the characterization theorem. -/
theorem c7_witness_greedy :
    greedy_face_search [(0 : ℚ)] [⟨1, [(0 : ℚ)]⟩] 1 10 =
      .ok (some ⟨1, [(0 : ℚ)]⟩) := by
  have hdim : ∀ u ∈ [(⟨1, [(0 : ℚ)]⟩ : UserRec)],
      u.face_embedding.length = [(0 : ℚ)].length := by
    intro u hu
    rw [List.mem_singleton] at hu
    subst hu
    rfl
  have h := (c7_greedy_ranked_matcher [(0 : ℚ)] [⟨1, [(0 : ℚ)]⟩] 1 10 _
    hdim rfl).2.2.2.2.1
  rw [h]
  have hl : l2sq [(0 : ℚ)] [(0 : ℚ)] = 0 := by
    simp [l2sq, sumSq]
  have hp : leThresh (l2sq [(0 : ℚ)] [(0 : ℚ)]) 1 = true := by
    rw [hl]
    exact leThresh_eq_true.mpr ⟨by norm_num, by norm_num⟩
  simp only [List.map_cons, List.map_nil, List.insertionSort,
    List.orderedInsert, List.length_cons, List.length_nil]
  norm_num
  intro hfalse
  rw [hp] at hfalse
  simp at hfalse

/-- Witness for claim C10: on a two-user snapshot with top_k one, the
returned user is the global nearest neighbor of the query. -/
theorem c10_witness_nearest :
    (⟨1, [(0 : ℚ)]⟩ : UserRec) ∈ [(⟨1, [(0 : ℚ)]⟩ : UserRec), ⟨2, [(3 : ℚ)]⟩]
    ∧ ∀ v ∈ [(⟨1, [(0 : ℚ)]⟩ : UserRec), ⟨2, [(3 : ℚ)]⟩],
        l2sq [(0 : ℚ)] (⟨1, [(0 : ℚ)]⟩ : UserRec).face_embedding ≤
          l2sq [(0 : ℚ)] v.face_embedding := by
  have hdim : ∀ v ∈ [(⟨1, [(0 : ℚ)]⟩ : UserRec), ⟨2, [(3 : ℚ)]⟩],
      v.face_embedding.length = [(0 : ℚ)].length := by
    intro v hv
    rw [List.mem_cons] at hv
    rcases hv with rfl | hv
    · rfl
    · rw [List.mem_singleton] at hv
      subst hv
      rfl
  have hl0 : l2sq [(0 : ℚ)] [(0 : ℚ)] = 0 := by simp [l2sq, sumSq]
  have hl3 : l2sq [(0 : ℚ)] [(3 : ℚ)] = 9 := by
    simp [l2sq, sumSq]
    norm_num
  have hp : leThresh (0 : ℚ) 1 = true :=
    leThresh_eq_true.mpr ⟨by norm_num, by norm_num⟩
  have hres : greedy_face_search [(0 : ℚ)]
      [⟨1, [(0 : ℚ)]⟩, ⟨2, [(3 : ℚ)]⟩] 1 1 = .ok (some ⟨1, [(0 : ℚ)]⟩) := by
    rw [greedy_eq _ _ _ _ hdim]
    simp only [List.map_cons, List.map_nil, hl0, hl3]
    simp only [List.insertionSort, List.orderedInsert]
    norm_num [scoreLE]
    intro hfalse
    rw [hp] at hfalse
    simp at hfalse
  exact c10_greedy_returns_nearest _ _ _ _ _ hdim (by norm_num) hres

/-!
Cluster index (face_search.py, class ClusterIndex) and its lifecycle
(get_or_build_index, clustered_face_search).  The MiniBatchKMeans call
of scikit-learn is an external numerical routine; following the spec's
design note it is treated as a pluggable capability: a function from the
requested cluster count and the point list to either a failure (a
clustering-library error) or a pair of centroids and one label per
point.  Python dictionaries are modelled as functions: the defaultdict
cluster_map as a total function to lists (empty by default), the
user_embeddings dict as a function to Option.
-/

inductive KMeansErr : Type
  | clusterFailure
  deriving DecidableEq

/-- The pluggable clustering capability: cluster count and points in,
centroids and per-point labels out, or a library error. -/
def KMeansFit : Type :=
  ℕ → List (List ℚ) → Except KMeansErr (List (List ℚ) × List ℕ)

structure ClusterIndex where
  n_clusters : ℕ
  cluster_centers : Option (List (List ℚ))
  cluster_map : ℕ → List ℕ
  user_embeddings : ℕ → Option (List ℚ)
  is_built : Bool

/-- ClusterIndex.__init__. -/
def ClusterIndex.init (n : ℕ) : ClusterIndex :=
  ⟨n, none, fun _ => [], fun _ => none, false⟩

/-- The defaultdict cluster map built from (user_id, label) pairs:
map[label].append(user_id) in order. -/
def clusterList (pairs : List (ℕ × ℕ)) (c : ℕ) : List ℕ :=
  (pairs.filter (fun p => p.2 == c)).map (fun p => p.1)

/-- The loop that stores each user's embedding into the
user_embeddings dict, later assignments overwriting earlier ones. -/
def storeEmbeddings (m : ℕ → Option (List ℚ)) :
    List UserRec → (ℕ → Option (List ℚ))
  | [] => m
  | u :: rest =>
    storeEmbeddings (fun i => if i = u.id then some u.face_embedding else m i)
      rest

/-- ClusterIndex.build_index (face_search.py lines 32 to 65), as a
transition on the mutable index object: an empty snapshot only clears
is_built; otherwise the embeddings are stored into user_embeddings, the
clustering runs, and on success centers, cluster map and is_built are
replaced.  On a clustering failure the exception propagates (second
component) and the object keeps its old cluster map, centers and
is_built flag while user_embeddings has already been overwritten. -/
def ClusterIndex.build_index (fit : KMeansFit) (idx : ClusterIndex)
    (users : List UserRec) : ClusterIndex × Option KMeansErr :=
  if users.length = 0 then
    (⟨idx.n_clusters, idx.cluster_centers, idx.cluster_map,
      idx.user_embeddings, false⟩, none)
  else
    let n := min idx.n_clusters (max 1 (users.length / 5))
    let emb2 := storeEmbeddings idx.user_embeddings users
    match fit n (users.map (fun u => u.face_embedding)) with
    | .error e =>
      (⟨idx.n_clusters, idx.cluster_centers, idx.cluster_map, emb2,
        idx.is_built⟩, some e)
    | .ok cl =>
      (⟨idx.n_clusters, some cl.1,
        clusterList ((users.map (fun u => u.id)).zip cl.2), emb2, true⟩,
       none)

/-- Step 1 and 2 of ClusterIndex.search: distances of the query to every
centroid, argsort, and the first num_clusters_to_check cluster ids
(face_search.py lines 94 to 100).  Keyed on the squared distance, which
induces the same order as the norm. -/
def nearestClusterIds (centers : List (List ℚ)) (q : List ℚ) (num : ℕ) :
    List ℕ :=
  ((List.insertionSort (fun a b : ℕ × ℚ => a.2 ≤ b.2)
      (centers.enum.map (fun p => (p.1, l2sq q p.2)))).map
        (fun p => p.1)).take num

/-- The inner loop of ClusterIndex.search over a cluster's user list
(face_search.py lines 106 to 111): first user within the threshold.  A
missing user_embeddings entry is skipped; by the coverage invariant this
branch is unreachable for an index the build produced (Python would
raise KeyError there). -/
def searchUsers (ue : ℕ → Option (List ℚ)) (q : List ℚ) (t : ℚ) :
    List ℕ → Option ℕ
  | [] => none
  | uid :: rest =>
    match ue uid with
    | none => searchUsers ue q t rest
    | some emb =>
      if leThresh (l2sq q emb) t then some uid else searchUsers ue q t rest

/-- The outer loop of ClusterIndex.search over the nearest clusters
(face_search.py lines 103 to 113). -/
def searchClusterIds (cmap : ℕ → List ℕ) (ue : ℕ → Option (List ℚ))
    (q : List ℚ) (t : ℚ) : List ℕ → Option ℕ
  | [] => none
  | cid :: rest =>
    match searchUsers ue q t (cmap cid) with
    | some uid => some uid
    | none => searchClusterIds cmap ue q t rest

/-- ClusterIndex.search (face_search.py lines 67 to 113). -/
def ClusterIndex.search (idx : ClusterIndex) (q : List ℚ) (t : ℚ)
    (num : ℕ) : Option ℕ :=
  if idx.is_built = false then none
  else
    match idx.cluster_centers with
    | none => none
    | some centers =>
      searchClusterIds idx.cluster_map idx.user_embeddings q t
        (nearestClusterIds centers q num)

theorem mem_clusterList (pairs : List (ℕ × ℕ)) (c uid : ℕ) :
    uid ∈ clusterList pairs c ↔ (uid, c) ∈ pairs := by
  constructor
  · intro h
    rcases List.mem_map.mp h with ⟨p, hp, rfl⟩
    rcases List.mem_filter.mp hp with ⟨hpp, hpc⟩
    obtain ⟨a, b⟩ := p
    have hbc : b = c := by simpa using hpc
    subst hbc
    exact hpp
  · intro h
    exact List.mem_map.mpr ⟨(uid, c), List.mem_filter.mpr ⟨h, by simp⟩, rfl⟩

theorem pairs_unique_snd (pairs : List (ℕ × ℕ))
    (hnd : (pairs.map (fun p => p.1)).Nodup) (uid c c' : ℕ)
    (h1 : (uid, c) ∈ pairs) (h2 : (uid, c') ∈ pairs) : c = c' := by
  induction pairs with
  | nil => simp at h1
  | cons p rest ih =>
    rw [List.map_cons, List.nodup_cons] at hnd
    rcases List.mem_cons.mp h1 with heq1 | h1'
    · rcases List.mem_cons.mp h2 with heq2 | h2'
      · rw [← heq1] at heq2
        injection heq2 with _ hc
        exact hc.symm
      · exfalso
        have hm : uid ∈ rest.map (fun p : ℕ × ℕ => p.1) :=
          List.mem_map_of_mem (fun p : ℕ × ℕ => p.1) h2'
        apply hnd.1
        rw [← heq1]
        exact hm
    · rcases List.mem_cons.mp h2 with heq2 | h2'
      · exfalso
        have hm : uid ∈ rest.map (fun p : ℕ × ℕ => p.1) :=
          List.mem_map_of_mem (fun p : ℕ × ℕ => p.1) h1'
        apply hnd.1
        rw [← heq2]
        exact hm
      · exact ih hnd.2 h1' h2'

theorem clusterList_nodup (pairs : List (ℕ × ℕ))
    (hnd : (pairs.map (fun p => p.1)).Nodup) (c : ℕ) :
    (clusterList pairs c).Nodup := by
  have hsub : List.Sublist
      ((pairs.filter (fun p => p.2 == c)).map (fun p => p.1))
      (pairs.map (fun p => p.1)) :=
    (List.filter_sublist pairs).map (fun p => p.1)
  exact hsub.nodup hnd

theorem map_fst_zip_eq (l1 l2 : List ℕ) (h : l1.length = l2.length) :
    ((l1.zip l2).map (fun p => p.1)) = l1 := by
  induction l1 generalizing l2 with
  | nil => rfl
  | cons a as ih =>
    cases l2 with
    | nil => simp at h
    | cons b bs =>
      simp only [List.zip_cons_cons, List.map_cons]
      rw [ih bs (by simpa using h)]

theorem mem_zip_of_mem_left (a : ℕ) (l1 l2 : List ℕ)
    (hlen : l1.length = l2.length) (ha : a ∈ l1) :
    ∃ b, (a, b) ∈ l1.zip l2 := by
  induction l1 generalizing l2 with
  | nil => simp at ha
  | cons x xs ih =>
    cases l2 with
    | nil => simp at hlen
    | cons y ys =>
      rcases List.mem_cons.mp ha with rfl | ha'
      · exact ⟨y, by simp⟩
      · rcases ih ys (by simpa using hlen) ha' with ⟨b, hb⟩
        exact ⟨b, List.mem_cons_of_mem _ hb⟩

theorem storeEmbeddings_eq_of_not_mem (m : ℕ → Option (List ℚ))
    (users : List UserRec) (i : ℕ) (h : ∀ u ∈ users, u.id ≠ i) :
    storeEmbeddings m users i = m i := by
  induction users generalizing m with
  | nil => rfl
  | cons u rest ih =>
    have hne := h u (List.mem_cons_self u rest)
    rw [storeEmbeddings,
      ih _ (fun v hv => h v (List.mem_cons_of_mem u hv))]
    exact if_neg (fun hh => hne hh.symm)

theorem storeEmbeddings_lookup (m : ℕ → Option (List ℚ))
    (users : List UserRec) (u : UserRec)
    (hnd : (users.map (fun v => v.id)).Nodup) (hu : u ∈ users) :
    storeEmbeddings m users u.id = some u.face_embedding := by
  induction users generalizing m with
  | nil => simp at hu
  | cons v rest ih =>
    rw [List.map_cons, List.nodup_cons] at hnd
    rcases List.mem_cons.mp hu with rfl | hu'
    · rw [storeEmbeddings, storeEmbeddings_eq_of_not_mem _ rest u.id
        (fun w hw hwid => hnd.1 (hwid ▸ List.mem_map_of_mem _ hw))]
      simp
    · rw [storeEmbeddings]
      exact ih _ hnd.2 hu'

theorem storeEmbeddings_isSome (m : ℕ → Option (List ℚ))
    (users : List UserRec) (i : ℕ) (h : ∃ u ∈ users, u.id = i) :
    storeEmbeddings m users i ≠ none := by
  induction users generalizing m with
  | nil =>
    rcases h with ⟨u, hu, _⟩
    simp at hu
  | cons v rest ih =>
    by_cases hmem : ∃ u ∈ rest, u.id = i
    · rw [storeEmbeddings]
      exact ih _ hmem
    · have hvi : v.id = i := by
        rcases h with ⟨u, hu, hui⟩
        rcases List.mem_cons.mp hu with rfl | hu'
        · exact hui
        · exact absurd ⟨u, hu', hui⟩ hmem
      rw [storeEmbeddings, storeEmbeddings_eq_of_not_mem _ rest i
        (fun w hw hwi => hmem ⟨w, hw, hwi⟩), if_pos hvi.symm]
      simp

/-- Claim C6: after a successful build on a non-empty snapshot with
distinct identity ids, every identity of the snapshot appears in exactly
one cluster's member list (once in that list, in no other list), the
union of the cluster lists is exactly the snapshot's identity set, and
every identity in any cluster list has an entry in the
identity-to-embedding mapping.  The labels returned by the clustering
routine assign one cluster per point (the scikit-learn contract:
one label per sample). -/
theorem c6_cluster_coverage (fit : KMeansFit) (idx0 idx : ClusterIndex)
    (users : List UserRec) (centers : List (List ℚ)) (labels : List ℕ)
    (hne : users ≠ [])
    (hnd : (users.map (fun u => u.id)).Nodup)
    (hfit : fit (min idx0.n_clusters (max 1 (users.length / 5)))
      (users.map (fun u => u.face_embedding)) = .ok (centers, labels))
    (hlab : labels.length = users.length)
    (hbuild : ClusterIndex.build_index fit idx0 users = (idx, none)) :
    (∀ u ∈ users, ∃ c, u.id ∈ idx.cluster_map c
        ∧ (idx.cluster_map c).count u.id = 1
        ∧ ∀ c', u.id ∈ idx.cluster_map c' → c' = c)
    ∧ (∀ c uid, uid ∈ idx.cluster_map c → ∃ u ∈ users, u.id = uid)
    ∧ (∀ c uid, uid ∈ idx.cluster_map c →
        idx.user_embeddings uid ≠ none) := by
  have husers : ¬(users.length = 0) := by
    intro h
    exact hne (List.length_eq_zero.mp h)
  unfold ClusterIndex.build_index at hbuild
  rw [if_neg husers] at hbuild
  simp only [hfit] at hbuild
  have hidx : idx = ⟨idx0.n_clusters, some centers,
      clusterList ((users.map (fun u => u.id)).zip labels),
      storeEmbeddings idx0.user_embeddings users, true⟩ := by
    have h := congrArg Prod.fst hbuild
    simpa using h.symm
  subst hidx
  have hlen : (users.map (fun u => u.id)).length = labels.length := by
    rw [List.length_map, hlab]
  have hpnd : (((users.map (fun u => u.id)).zip labels).map
      (fun p => p.1)).Nodup := by
    rw [map_fst_zip_eq _ _ hlen]
    exact hnd
  refine ⟨?_, ?_, ?_⟩
  · intro u hu
    have hid : u.id ∈ users.map (fun v => v.id) :=
      List.mem_map_of_mem _ hu
    obtain ⟨c, hc⟩ := mem_zip_of_mem_left u.id _ labels hlen hid
    refine ⟨c, (mem_clusterList _ _ _).mpr hc, ?_, ?_⟩
    · exact List.count_eq_one_of_mem (clusterList_nodup _ hpnd c)
        ((mem_clusterList _ _ _).mpr hc)
    · intro c' hc'
      exact pairs_unique_snd _ hpnd u.id c' c
        ((mem_clusterList _ _ _).mp hc') hc
  · intro c uid h
    have hp := (mem_clusterList _ _ _).mp h
    have hm := (List.of_mem_zip hp).1
    rcases List.mem_map.mp hm with ⟨u, hu, huid⟩
    exact ⟨u, hu, huid⟩
  · intro c uid h
    have hp := (mem_clusterList _ _ _).mp h
    have hm := (List.of_mem_zip hp).1
    rcases List.mem_map.mp hm with ⟨u, hu, huid⟩
    exact storeEmbeddings_isSome _ _ _ ⟨u, hu, huid⟩

/-- A concrete clustering stub obeying the scikit-learn contract: n
centroids and one label (always cluster 0) per point. -/
def fitStub : KMeansFit :=
  fun n embs => .ok (List.replicate n [0], List.replicate embs.length 0)

/-- A clustering stub that always fails, as on degenerate input. -/
def fitFail : KMeansFit :=
  fun _ _ => .error .clusterFailure

/-- Witness for claim C6: a concrete one-user build, via the coverage
theorem, yields exactly one cluster list containing that user's id. -/
theorem c6_witness_coverage :
    ∃ c, (⟨1, [(0 : ℚ)]⟩ : UserRec).id ∈
        ((ClusterIndex.build_index fitStub (ClusterIndex.init 20)
          [⟨1, [(0 : ℚ)]⟩]).1).cluster_map c
      ∧ (((ClusterIndex.build_index fitStub (ClusterIndex.init 20)
          [⟨1, [(0 : ℚ)]⟩]).1).cluster_map c).count
            (⟨1, [(0 : ℚ)]⟩ : UserRec).id = 1
      ∧ ∀ c', (⟨1, [(0 : ℚ)]⟩ : UserRec).id ∈
          ((ClusterIndex.build_index fitStub (ClusterIndex.init 20)
            [⟨1, [(0 : ℚ)]⟩]).1).cluster_map c' → c' = c := by
  have h := c6_cluster_coverage fitStub (ClusterIndex.init 20)
    (ClusterIndex.build_index fitStub (ClusterIndex.init 20)
      [⟨1, [(0 : ℚ)]⟩]).1
    [⟨1, [(0 : ℚ)]⟩] [[0]] [0]
    (by simp) (by simp) rfl rfl rfl
  exact h.1 ⟨1, [(0 : ℚ)]⟩ (by simp)

/-!
Index Lifecycle Manager (face_search.py, get_or_build_index and
clustered_face_search).  The process-global _cluster_index is passed and
returned explicitly; a raised exception of the build appears as the
error component of the result, next to the state the mutated global
points to afterwards.
-/

/-- get_or_build_index (face_search.py lines 132 to 158). -/
def get_or_build_index (fit : KMeansFit) (users : List UserRec)
    (g : Option ClusterIndex) (force_rebuild : Bool) :
    Option ClusterIndex × Except KMeansErr ClusterIndex :=
  match g with
  | none =>
    let idx0 := ClusterIndex.init (max 20 (min 200 (users.length / 500)))
    let r := ClusterIndex.build_index fit idx0 users
    (some r.1, match r.2 with | some e => .error e | none => .ok r.1)
  | some idx =>
    if force_rebuild || !idx.is_built then
      let r := ClusterIndex.build_index fit idx users
      (some r.1, match r.2 with | some e => .error e | none => .ok r.1)
    else (some idx, .ok idx)

/-- clustered_face_search (face_search.py lines 161 to 191): get or
build the index, search it, and fetch the matched user from the store;
a build failure propagates out of the call, there is no fallback. -/
def clustered_face_search (fit : KMeansFit) (q : List ℚ)
    (users : List UserRec) (g : Option ClusterIndex) (t : ℚ) (num : ℕ) :
    Option ClusterIndex × Except KMeansErr (Option UserRec) :=
  match get_or_build_index fit users g false with
  | (g2, .error e) => (g2, .error e)
  | (g2, .ok idx) =>
    (g2, .ok ((idx.search q t num).bind
      (fun uid => users.find? (fun u => u.id == uid))))

/-- Claim C5, counterexample: with a failing clustering routine on a
one-user snapshot whose user matches the query, the clustered search
call fails with the clustering error instead of returning the linear
answer, which exists. -/
theorem c5_counterexample_no_fallback :
    (clustered_face_search fitFail [(0 : ℚ)] [⟨1, [(0 : ℚ)]⟩]
        none 1 3).2 = .error .clusterFailure
    ∧ linear_find_match [(0 : ℚ)] [⟨1, [(0 : ℚ)]⟩] 1 =
        .ok (some ⟨1, [(0 : ℚ)]⟩) := by
  constructor
  · rfl
  · have hs : sumSq [(0 : ℚ) - 0] = 0 := by simp [sumSq]
    have hp : leThresh (0 : ℚ) 1 = true :=
      leThresh_eq_true.mpr ⟨by norm_num, by norm_num⟩
    have hm : embeddings_match [(0 : ℚ)] [(0 : ℚ)] 1 = .ok true := by
      unfold embeddings_match npSub
      rw [if_pos rfl]
      show Except.ok (leThresh (sumSq
        (List.zipWith (fun x y => x - y) [(0 : ℚ)] [(0 : ℚ)])) 1) = .ok true
      rw [show List.zipWith (fun x y : ℚ => x - y) [(0 : ℚ)] [(0 : ℚ)] =
        [(0 : ℚ) - 0] from rfl, hs, hp]
    unfold linear_find_match
    rw [hm]

/-- Claim C5, amended: when the clustering routine fails during a
rebuild triggered by a not-yet-built index, the error propagates out of
clustered_face_search (no fallback to the linear matcher), and the index
object is left half-updated: user_embeddings overwritten with the new
snapshot's entries while cluster map, centers and the built flag keep
their pre-build values. -/
theorem c5_failed_rebuild_propagates (fit : KMeansFit) (q : List ℚ)
    (users : List UserRec) (t : ℚ) (num : ℕ) (idx : ClusterIndex)
    (e : KMeansErr)
    (hne : users ≠ [])
    (hnb : idx.is_built = false)
    (hfit : fit (min idx.n_clusters (max 1 (users.length / 5)))
      (users.map (fun u => u.face_embedding)) = .error e) :
    clustered_face_search fit q users (some idx) t num =
      (some ⟨idx.n_clusters, idx.cluster_centers, idx.cluster_map,
        storeEmbeddings idx.user_embeddings users, idx.is_built⟩,
       .error e) := by
  have husers : ¬(users.length = 0) := by
    intro h
    exact hne (List.length_eq_zero.mp h)
  unfold clustered_face_search get_or_build_index
  simp only [hnb, Bool.not_false, Bool.or_true, if_true]
  unfold ClusterIndex.build_index
  rw [if_neg husers]
  simp only [hfit]
  rw [hnb]

/-- Witness for the amended claim C5 at a concrete failing build. -/
theorem c5_amended_witness :
    clustered_face_search fitFail [(0 : ℚ)] [⟨1, [(0 : ℚ)]⟩]
        (some (ClusterIndex.init 20)) 1 3 =
      (some ⟨20, none, (ClusterIndex.init 20).cluster_map,
        storeEmbeddings (ClusterIndex.init 20).user_embeddings
          [⟨1, [(0 : ℚ)]⟩], false⟩,
       .error .clusterFailure) :=
  c5_failed_rebuild_propagates fitFail [(0 : ℚ)] [⟨1, [(0 : ℚ)]⟩] 1 3
    (ClusterIndex.init 20) .clusterFailure (by simp) rfl rfl

/-!
Existence-equivalence of the three matchers (claim C2).
-/

/-- At least one identity of the snapshot lies within the threshold. -/
def hasMatch (q : List ℚ) (users : List UserRec) (t : ℚ) : Prop :=
  ∃ u ∈ users, leThresh (l2sq q u.face_embedding) t = true

theorem embeddings_match_eq (q : List ℚ) (v : UserRec) (t : ℚ)
    (hq : q.length = v.face_embedding.length) :
    embeddings_match q v.face_embedding t =
      .ok (leThresh (l2sq q v.face_embedding) t) := by
  unfold embeddings_match npSub
  rw [if_pos hq]
  rfl

theorem linear_find_match_iff (q : List ℚ) (users : List UserRec) (t : ℚ)
    (hdim : ∀ u ∈ users, u.face_embedding.length = q.length) :
    (∃ u, linear_find_match q users t = .ok (some u)) ↔
      hasMatch q users t := by
  induction users with
  | nil => simp [linear_find_match, hasMatch]
  | cons v rest ih =>
    have hdim' : ∀ u ∈ rest, u.face_embedding.length = q.length :=
      fun u hu => hdim u (List.mem_cons_of_mem v hu)
    have hm := embeddings_match_eq q v t
      (hdim v (List.mem_cons_self v rest)).symm
    by_cases hv : leThresh (l2sq q v.face_embedding) t = true
    · constructor
      · intro _
        exact ⟨v, List.mem_cons_self v rest, hv⟩
      · intro _
        refine ⟨v, ?_⟩
        unfold linear_find_match
        rw [hm, hv]
    · have hfalse : leThresh (l2sq q v.face_embedding) t = false := by
        simpa using hv
      have hstep : linear_find_match q (v :: rest) t =
          linear_find_match q rest t := by
        conv_lhs => rw [linear_find_match]
        rw [hm, hfalse]
      rw [hstep, ih hdim']
      constructor
      · intro ⟨u, hu, hut⟩
        exact ⟨u, List.mem_cons_of_mem v hu, hut⟩
      · intro ⟨u, hu, hut⟩
        rcases List.mem_cons.mp hu with rfl | hu'
        · exact absurd hut hv
        · exact ⟨u, hu', hut⟩

theorem greedy_exists_iff (q : List ℚ) (users : List UserRec) (t : ℚ)
    (hdim : ∀ u ∈ users, u.face_embedding.length = q.length) :
    (∃ u, greedy_face_search q users t users.length = .ok (some u)) ↔
      hasMatch q users t := by
  rw [greedy_eq q users t users.length hdim]
  constructor
  · intro ⟨u, hu⟩
    have hmap : ((((List.insertionSort scoreLE
        (users.map (fun v => (v, l2sq q v.face_embedding)))).take
          (min users.length
            (users.map (fun v => (v, l2sq q v.face_embedding))).length)).find?
              (fun p => leThresh p.2 t)).map (fun p => p.1)) = some u := by
      simpa using hu
    rcases Option.map_eq_some'.mp hmap with ⟨x, hfind, _⟩
    have hx := List.find?_some hfind
    have hxmem := List.mem_of_find?_eq_some hfind
    have hxS : x ∈ users.map (fun v => (v, l2sq q v.face_embedding)) :=
      (List.perm_insertionSort scoreLE _).subset
        ((List.take_sublist _ _).subset hxmem)
    rcases List.mem_map.mp hxS with ⟨w, hw, rfl⟩
    exact ⟨w, hw, by simpa using hx⟩
  · intro ⟨u, hu, hut⟩
    have hS : (u, l2sq q u.face_embedding) ∈
        users.map (fun v => (v, l2sq q v.face_embedding)) :=
      List.mem_map_of_mem _ hu
    have hlenS : (List.insertionSort scoreLE
        (users.map (fun v => (v, l2sq q v.face_embedding)))).length =
        (users.map (fun v => (v, l2sq q v.face_embedding))).length :=
      (List.perm_insertionSort scoreLE _).length_eq
    have htake : (List.insertionSort scoreLE
        (users.map (fun v => (v, l2sq q v.face_embedding)))).take
          (min users.length
            (users.map (fun v => (v, l2sq q v.face_embedding))).length) =
        List.insertionSort scoreLE
          (users.map (fun v => (v, l2sq q v.face_embedding))) := by
      apply List.take_of_length_le
      rw [hlenS, List.length_map]
      simp
    rw [htake]
    have hex : ∃ x, x ∈ List.insertionSort scoreLE
        (users.map (fun v => (v, l2sq q v.face_embedding)))
        ∧ (fun p : UserRec × ℚ => leThresh p.2 t) x = true :=
      ⟨(u, l2sq q u.face_embedding),
        (List.perm_insertionSort scoreLE _).mem_iff.mpr hS, hut⟩
    have hsome := List.find?_isSome.mpr hex
    rcases Option.isSome_iff_exists.mp hsome with ⟨x, hx⟩
    refine ⟨x.1, ?_⟩
    rw [hx]
    rfl

theorem searchUsers_isSome_iff (ue : ℕ → Option (List ℚ)) (q : List ℚ)
    (t : ℚ) (l : List ℕ) :
    (∃ uid, searchUsers ue q t l = some uid) ↔
      ∃ uid ∈ l, ∃ emb, ue uid = some emb
        ∧ leThresh (l2sq q emb) t = true := by
  induction l with
  | nil => simp [searchUsers]
  | cons a rest ih =>
    cases h : ue a with
    | none =>
      have hstep : searchUsers ue q t (a :: rest) =
          searchUsers ue q t rest := by
        conv_lhs => rw [searchUsers]
        rw [h]
      rw [hstep, ih]
      constructor
      · intro ⟨uid, hmem, hrest⟩
        exact ⟨uid, List.mem_cons_of_mem _ hmem, hrest⟩
      · intro ⟨uid, hmem, emb, hemb, hle⟩
        rcases List.mem_cons.mp hmem with rfl | hm'
        · rw [h] at hemb
          cases hemb
        · exact ⟨uid, hm', emb, hemb, hle⟩
    | some emb =>
      by_cases hle : leThresh (l2sq q emb) t = true
      · have hstep : searchUsers ue q t (a :: rest) = some a := by
          conv_lhs => rw [searchUsers]
          rw [h]
          exact if_pos hle
        rw [hstep]
        constructor
        · intro _
          exact ⟨a, List.mem_cons_self a rest, emb, h, hle⟩
        · intro _
          exact ⟨a, rfl⟩
      · have hle' : leThresh (l2sq q emb) t = false := by simpa using hle
        have hstep : searchUsers ue q t (a :: rest) =
            searchUsers ue q t rest := by
          conv_lhs => rw [searchUsers]
          rw [h]
          exact if_neg (by simp [hle'])
        rw [hstep, ih]
        constructor
        · intro ⟨uid, hmem, hrest⟩
          exact ⟨uid, List.mem_cons_of_mem _ hmem, hrest⟩
        · intro ⟨uid, hmem, emb2, hemb2, hle2⟩
          rcases List.mem_cons.mp hmem with rfl | hm'
          · rw [h] at hemb2
            injection hemb2 with he
            subst he
            exact absurd (hle'.symm.trans hle2) (by decide)
          · exact ⟨uid, hm', emb2, hemb2, hle2⟩

theorem searchClusterIds_isSome_iff (cmap : ℕ → List ℕ)
    (ue : ℕ → Option (List ℚ)) (q : List ℚ) (t : ℚ) (cl : List ℕ) :
    (∃ uid, searchClusterIds cmap ue q t cl = some uid) ↔
      ∃ cid ∈ cl, ∃ uid ∈ cmap cid, ∃ emb, ue uid = some emb
        ∧ leThresh (l2sq q emb) t = true := by
  induction cl with
  | nil => simp [searchClusterIds]
  | cons cid rest ih =>
    cases hs : searchUsers ue q t (cmap cid) with
    | some uid =>
      have hstep : searchClusterIds cmap ue q t (cid :: rest) = some uid := by
        conv_lhs => rw [searchClusterIds]
        rw [hs]
      rw [hstep]
      constructor
      · intro _
        rcases (searchUsers_isSome_iff ue q t (cmap cid)).mp ⟨uid, hs⟩ with
          ⟨w, hw, emb, hemb, hle⟩
        exact ⟨cid, List.mem_cons_self cid rest, w, hw, emb, hemb, hle⟩
      · intro _
        exact ⟨uid, rfl⟩
    | none =>
      have hstep : searchClusterIds cmap ue q t (cid :: rest) =
          searchClusterIds cmap ue q t rest := by
        conv_lhs => rw [searchClusterIds]
        rw [hs]
      rw [hstep, ih]
      constructor
      · intro ⟨c2, hc2, hrest⟩
        exact ⟨c2, List.mem_cons_of_mem _ hc2, hrest⟩
      · intro ⟨c2, hc2, uid, huid, emb, hemb, hle⟩
        rcases List.mem_cons.mp hc2 with rfl | hc2'
        · exfalso
          rcases (searchUsers_isSome_iff ue q t (cmap c2)).mpr
            ⟨uid, huid, emb, hemb, hle⟩ with ⟨w, hw⟩
          rw [hs] at hw
          cases hw
        · exact ⟨c2, hc2', uid, huid, emb, hemb, hle⟩

theorem mem_nearestClusterIds (centers : List (List ℚ)) (q : List ℚ)
    (num c : ℕ) (hc : c < centers.length)
    (hnum : centers.length ≤ num) :
    c ∈ nearestClusterIds centers q num := by
  unfold nearestClusterIds
  have hperm : List.Perm
      (List.insertionSort (fun a b : ℕ × ℚ => a.2 ≤ b.2)
        (centers.enum.map (fun p => (p.1, l2sq q p.2))))
      (centers.enum.map (fun p => (p.1, l2sq q p.2))) :=
    List.perm_insertionSort _ _
  have hlen : ((List.insertionSort (fun a b : ℕ × ℚ => a.2 ≤ b.2)
      (centers.enum.map (fun p => (p.1, l2sq q p.2)))).map
        (fun p => p.1)).length = centers.length := by
    rw [List.length_map, hperm.length_eq, List.length_map, List.enum_length]
  rw [List.take_of_length_le (by rw [hlen]; exact hnum)]
  have hcl : c < centers.enum.length := by
    rw [List.enum_length]
    exact hc
  have h1 : (c, centers[c]) ∈ centers.enum := by
    have h2 := List.getElem_mem hcl
    rwa [List.getElem_enum] at h2
  have h3 : ((c, centers[c]).1,
      l2sq q (c, centers[c]).2) ∈
      centers.enum.map (fun p => (p.1, l2sq q p.2)) :=
    List.mem_map_of_mem _ h1
  have h4 : ((c, centers[c]).1, l2sq q (c, centers[c]).2) ∈
      List.insertionSort (fun a b : ℕ × ℚ => a.2 ≤ b.2)
        (centers.enum.map (fun p => (p.1, l2sq q p.2))) :=
    hperm.mem_iff.mpr h3
  exact List.mem_map_of_mem (fun p => p.1) h4

theorem cluster_search_iff (fit : KMeansFit) (idx0 idx : ClusterIndex)
    (users : List UserRec) (centers : List (List ℚ)) (labels : List ℕ)
    (q : List ℚ) (t : ℚ) (num : ℕ)
    (hnd : (users.map (fun u => u.id)).Nodup)
    (hfit : fit (min idx0.n_clusters (max 1 (users.length / 5)))
      (users.map (fun u => u.face_embedding)) = .ok (centers, labels))
    (hlab : labels.length = users.length)
    (hlt : ∀ l ∈ labels, l < centers.length)
    (hnum : centers.length ≤ num)
    (hbuild : ClusterIndex.build_index fit idx0 users = (idx, none)) :
    (∃ uid, idx.search q t num = some uid) ↔ hasMatch q users t := by
  by_cases hne : users.length = 0
  · have husers : users = [] := List.length_eq_zero.mp hne
    subst husers
    unfold ClusterIndex.build_index at hbuild
    rw [if_pos (show ([] : List UserRec).length = 0 from rfl)] at hbuild
    have hidx : idx = ⟨idx0.n_clusters, idx0.cluster_centers,
        idx0.cluster_map, idx0.user_embeddings, false⟩ := by
      have h := congrArg Prod.fst hbuild
      simpa using h.symm
    subst hidx
    simp [ClusterIndex.search, hasMatch]
  · unfold ClusterIndex.build_index at hbuild
    rw [if_neg hne] at hbuild
    simp only [hfit] at hbuild
    have hidx : idx = ⟨idx0.n_clusters, some centers,
        clusterList ((users.map (fun u => u.id)).zip labels),
        storeEmbeddings idx0.user_embeddings users, true⟩ := by
      have h := congrArg Prod.fst hbuild
      simpa using h.symm
    subst hidx
    unfold ClusterIndex.search
    rw [if_neg (by simp)]
    show (∃ uid, searchClusterIds
        (clusterList ((users.map (fun u => u.id)).zip labels))
        (storeEmbeddings idx0.user_embeddings users) q t
        (nearestClusterIds centers q num) = some uid) ↔ hasMatch q users t
    rw [searchClusterIds_isSome_iff]
    constructor
    · intro ⟨cid, _, uid, huid, emb, hemb, hle⟩
      have hp := (mem_clusterList _ _ _).mp huid
      have hm := (List.of_mem_zip hp).1
      rcases List.mem_map.mp hm with ⟨u, hu, huid2⟩
      have hlook : storeEmbeddings idx0.user_embeddings users u.id =
          some u.face_embedding :=
        storeEmbeddings_lookup _ _ _ hnd hu
      rw [← huid2, hlook] at hemb
      injection hemb with he
      subst he
      exact ⟨u, hu, hle⟩
    · intro ⟨u, hu, hut⟩
      have hid : u.id ∈ users.map (fun v => v.id) :=
        List.mem_map_of_mem _ hu
      have hlen2 : (users.map (fun v => v.id)).length = labels.length := by
        rw [List.length_map, hlab]
      obtain ⟨c, hc⟩ := mem_zip_of_mem_left u.id _ labels hlen2 hid
      have hcl : c ∈ labels := (List.of_mem_zip hc).2
      exact ⟨c, mem_nearestClusterIds centers q num c (hlt c hcl) hnum,
        u.id, (mem_clusterList _ _ _).mpr hc, u.face_embedding,
        storeEmbeddings_lookup _ _ _ hnd hu, hut⟩

/-- Claim C2: for every snapshot and threshold the linear matcher, the
greedy matcher with top_k equal to the snapshot size, and the cluster
index search with clusters_to_check covering all clusters agree on
whether a match exists.  Hypotheses: fixed per-deployment embedding
dimension, database-unique identity ids, and the clustering contract
(one label per point, labels indexing the centroid list). -/
theorem c2_existence_equivalence (fit : KMeansFit) (idx0 idx : ClusterIndex)
    (users : List UserRec) (centers : List (List ℚ)) (labels : List ℕ)
    (q : List ℚ) (t : ℚ) (num : ℕ)
    (hdim : ∀ u ∈ users, u.face_embedding.length = q.length)
    (hnd : (users.map (fun u => u.id)).Nodup)
    (hfit : fit (min idx0.n_clusters (max 1 (users.length / 5)))
      (users.map (fun u => u.face_embedding)) = .ok (centers, labels))
    (hlab : labels.length = users.length)
    (hlt : ∀ l ∈ labels, l < centers.length)
    (hnum : centers.length ≤ num)
    (hbuild : ClusterIndex.build_index fit idx0 users = (idx, none)) :
    ((∃ u, linear_find_match q users t = .ok (some u)) ↔
      (∃ u, greedy_face_search q users t users.length = .ok (some u)))
    ∧ ((∃ u, linear_find_match q users t = .ok (some u)) ↔
      (∃ uid, idx.search q t num = some uid)) :=
  ⟨(linear_find_match_iff q users t hdim).trans
      (greedy_exists_iff q users t hdim).symm,
   (linear_find_match_iff q users t hdim).trans
      (cluster_search_iff fit idx0 idx users centers labels q t num
        hnd hfit hlab hlt hnum hbuild).symm⟩

/-- Witness for claim C2: on a concrete one-user snapshot whose user
matches the query, the cluster search agrees with the linear matcher
that a match exists. -/
theorem c2_witness_equivalence :
    ∃ uid, ((ClusterIndex.build_index fitStub (ClusterIndex.init 20)
      [⟨1, [(0 : ℚ)]⟩]).1).search [(0 : ℚ)] 1 1 = some uid := by
  have hdim : ∀ u ∈ [(⟨1, [(0 : ℚ)]⟩ : UserRec)],
      u.face_embedding.length = [(0 : ℚ)].length := by
    intro u hu
    rw [List.mem_singleton] at hu
    subst hu
    rfl
  have h := c2_existence_equivalence fitStub (ClusterIndex.init 20)
    (ClusterIndex.build_index fitStub (ClusterIndex.init 20)
      [⟨1, [(0 : ℚ)]⟩]).1
    [⟨1, [(0 : ℚ)]⟩] [[0]] [0] [(0 : ℚ)] 1 1
    hdim (by simp) rfl rfl (by simp) (by simp) rfl
  apply h.2.mp
  refine ⟨⟨1, [(0 : ℚ)]⟩, ?_⟩
  have hs : sumSq [(0 : ℚ) - 0] = 0 := by simp [sumSq]
  have hp : leThresh (0 : ℚ) 1 = true :=
    leThresh_eq_true.mpr ⟨by norm_num, by norm_num⟩
  have hm : embeddings_match [(0 : ℚ)] [(0 : ℚ)] 1 = .ok true := by
    unfold embeddings_match npSub
    rw [if_pos rfl]
    show Except.ok (leThresh (sumSq
      (List.zipWith (fun x y => x - y) [(0 : ℚ)] [(0 : ℚ)])) 1) = .ok true
    rw [show List.zipWith (fun x y : ℚ => x - y) [(0 : ℚ)] [(0 : ℚ)] =
      [(0 : ℚ) - 0] from rfl, hs, hp]
  unfold linear_find_match
  rw [hm]
